import Mathlib

/-
Verification development for the Sketch_gen data-preparation scripts
(`clean_and_prepare_captions.py`, `process_all_captions.py`,
`validate_captions.py`, `caption_generator_finetuned.py`).

The Python code is shallowly embedded over `List Char` / `String`:
* Python strings are `List Char` (or `String` where only equality matters);
  character classes are restricted to the ASCII range actually exercised by
  the scripts (`str.upper`, `re.IGNORECASE`, `\s`).
* `re.sub` calls are embedded as left-to-right scan functions that mirror the
  concrete patterns appearing in the scripts (fixed alternation phrases,
  `\s+`, `,\s*,+`), written with structural recursion so that every
  definition evaluates by `rfl`/`decide`.
* filesystem state (the output training directory) is an association list
  from filename to entry; `pandas.DataFrame.to_csv` / `pandas.read_csv` are
  embedded from their documented default behaviour (QUOTE_MINIMAL quoting,
  `'\n'` line terminator, header row, default `na_values`, all-or-nothing
  numeric and boolean column conversion — including case-insensitive
  `inf`/`Infinity` and `True`/`False` tokens — and blank-line skipping).
-/

/-! ## Character utilities -/

/-- Whitespace characters recognised by Python's `str.split()` / `re` `\s`
(ASCII range; the scripts only ever produce ASCII whitespace). -/
def wsChars : List Char := [' ', '\t', '\n', '\r', '\x0b', '\x0c']

/-- Boolean whitespace test used throughout the embedding. -/
def isWS (c : Char) : Bool := wsChars.contains c

/-- The ASCII lower/upper case pairs. -/
def casePairs : List (Char × Char) :=
  [('a', 'A'), ('b', 'B'), ('c', 'C'), ('d', 'D'), ('e', 'E'), ('f', 'F'), ('g', 'G'), ('h', 'H'), ('i', 'I'), ('j', 'J'), ('k', 'K'), ('l', 'L'), ('m', 'M'), ('n', 'N'), ('o', 'O'), ('p', 'P'), ('q', 'Q'), ('r', 'R'), ('s', 'S'), ('t', 'T'), ('u', 'U'), ('v', 'V'), ('w', 'W'), ('x', 'X'), ('y', 'Y'), ('z', 'Z')]

/-- ASCII upper-casing of a single character, as used by
`caption[0].upper()` in `clean_and_prepare_captions.clean_caption`. -/
def upperChar (c : Char) : Char :=
  match casePairs.find? (fun p => p.1 == c) with
  | some p => p.2
  | none => c

/-- ASCII lower-casing of a single character (used to embed
`re.IGNORECASE` matching of the fixed ASCII phrases). -/
def lowerChar (c : Char) : Char :=
  match casePairs.find? (fun p => p.2 == c) with
  | some p => p.1
  | none => c

/-! ## Word splitting (`str.split()`) and word counting -/

/-- Worker for `splitWs`: `cur` is the current word accumulated in reverse. -/
def swGo (cur : List Char) : List Char → List (List Char)
  | [] => if cur.isEmpty then [] else [cur.reverse]
  | c :: cs =>
    if isWS c then
      if cur.isEmpty then swGo [] cs else cur.reverse :: swGo [] cs
    else swGo (c :: cur) cs

/-- Python `caption.split()`: split on runs of whitespace, dropping empty
words. -/
def splitWs (s : List Char) : List (List Char) := swGo [] s

/-- Number of words of a string in the sense of Python `len(s.split())`. -/
def wordCount (s : List Char) : Nat := (splitWs s).length

/-- Word counter with an explicit "currently inside a word" flag; used only
in proofs, and shown equal to `wordCount` below. -/
def wcAux (b : Bool) : List Char → Nat
  | [] => 0
  | c :: cs => if isWS c then wcAux false cs else (if b then 0 else 1) + wcAux true cs

/-- Python `' '.join(words)`. -/
def joinSp : List (List Char) → List Char
  | [] => []
  | [w] => w
  | w :: v :: ws => w ++ ' ' :: joinSp (v :: ws)

/-- The "inside a word" flag after scanning a string starting from flag
`b`; proof-only companion of `wcAux`. -/
def endFlag (b : Bool) : List Char → Bool
  | [] => b
  | c :: cs => endFlag (!isWS c) cs

/-! ## Stripping -/

/-- Remove the longest suffix of characters satisfying `p`
(`str.rstrip`-style, for a predicate). -/
def dropEndWhile (p : Char → Bool) (s : List Char) : List Char :=
  (s.reverse.dropWhile p).reverse

/-- Python `s.lstrip()` (whitespace). -/
def lstripWs (s : List Char) : List Char := s.dropWhile isWS

/-- Python `s.rstrip()` (whitespace). -/
def rstripWs (s : List Char) : List Char := dropEndWhile isWS s

/-- Python `s.strip()` (whitespace, both ends). -/
def stripWsBoth (s : List Char) : List Char := lstripWs (rstripWs s)

/-- Python `s.strip(chars)`: remove characters of `set` from both ends. -/
def stripSet (set : List Char) (s : List Char) : List Char :=
  dropEndWhile set.contains (s.dropWhile set.contains)

/-! ## Embedding of the regex passes of
`clean_and_prepare_captions.clean_caption` -/

/-- Case-insensitive character comparison (ASCII, as exercised by the
scripts' `re.IGNORECASE` patterns). -/
def ciEq (a b : Char) : Bool := lowerChar a == lowerChar b

/-- `ciLeads p s`: the fixed phrase `p` matches case-insensitively at the
start of `s`. -/
def ciLeads : List Char → List Char → Bool
  | [], _ => true
  | _ :: _, [] => false
  | p :: ps, c :: cs => ciEq p c && ciLeads ps cs

/-- Worker for `subDelete`: scan left to right, deleting case-insensitive
occurrences of any of the fixed `phrases`; `skip` counts characters of a
match still to be consumed. -/
def sdGo (phrases : List (List Char)) : Nat → List Char → List Char
  | _, [] => []
  | k + 1, _ :: cs => sdGo phrases k cs
  | 0, c :: cs =>
    match phrases.find? (fun p => !p.isEmpty && ciLeads p (c :: cs)) with
    | some p => sdGo phrases (p.length - 1) cs
    | none => c :: sdGo phrases 0 cs

/-- Embedding of `re.sub(pattern, '', caption, flags=re.IGNORECASE)` for an
alternation of fixed phrases: delete non-overlapping matches left to right.
(The phrase lists below are all nonempty strings, so the `!p.isEmpty` guard
never changes behaviour; it only keeps the scan well defined.) -/
def subDelete (phrases : List (List Char)) (s : List Char) : List Char :=
  sdGo phrases 0 s

/-- Expansion of `This (person|woman|man|individual|girl|boy) (is|has)` in
the regex engine's alternation order. -/
def phrasesThis : List (List Char) :=
  ["This person is", "This person has", "This woman is", "This woman has",
   "This man is", "This man has", "This individual is", "This individual has",
   "This girl is", "This girl has", "This boy is", "This boy has"].map String.data

/-- Expansion of `The (person|woman|man|individual|girl|boy) (is|has)`. -/
def phrasesThe : List (List Char) :=
  ["The person is", "The person has", "The woman is", "The woman has",
   "The man is", "The man has", "The individual is", "The individual has",
   "The girl is", "The girl has", "The boy is", "The boy has"].map String.data

/-- Expansion of `She (is|has|wears)`. -/
def phrasesShe : List (List Char) :=
  ["She is", "She has", "She wears"].map String.data

/-- Expansion of `He (is|has|wears)`. -/
def phrasesHe : List (List Char) :=
  ["He is", "He has", "He wears"].map String.data

/-- Python `s.replace(ab, rep)` for a two-character pattern `ab`:
non-overlapping replacement, scanning left to right (used for
`replace('. ', ', ')` and `replace('..', '.')`). -/
def replace2 (a b : Char) (rep : List Char) : List Char → List Char
  | [] => []
  | [c] => [c]
  | c :: d :: rest =>
    if c = a && d = b then rep ++ replace2 a b rep rest
    else c :: replace2 a b rep (d :: rest)

/-- Worker for `collapseWs`: `prevWs` records whether the previous character
belonged to a whitespace run already replaced by a single `' '`. -/
def collapseGo (prevWs : Bool) : List Char → List Char
  | [] => []
  | c :: cs =>
    if isWS c then
      if prevWs then collapseGo true cs else ' ' :: collapseGo true cs
    else c :: collapseGo false cs

/-- Embedding of `re.sub(r'\s+', ' ', s)`: each maximal whitespace run
becomes a single space. -/
def collapseWs (s : List Char) : List Char := collapseGo false s

/-- Scanner states for the `,\s*,+` pass: `norm` = ordinary scanning,
`pend ws` = a `','` was seen, `ws` holds the (reversed) whitespace read
since, `run` = inside the trailing greedy `,+` of a match. -/
inductive CCMode where
  | norm
  | pend (ws : List Char)
  | run
deriving DecidableEq

/-- Characters held in a scanner state (proof-only helper). -/
def modeChars : CCMode → List Char
  | .norm => []
  | .pend ws => ws
  | .run => []

/-- Worker for `commaCollapse`. -/
def ccGo : CCMode → List Char → List Char
  | .norm, [] => []
  | .norm, c :: cs => if c = ',' then ccGo (.pend []) cs else c :: ccGo .norm cs
  | .pend ws, [] => ',' :: ws.reverse
  | .pend ws, c :: cs =>
    if c = ',' then ',' :: ccGo .run cs
    else if isWS c then ccGo (.pend (c :: ws)) cs
    else ',' :: (ws.reverse ++ c :: ccGo .norm cs)
  | .run, [] => []
  | .run, c :: cs => if c = ',' then ccGo .run cs else c :: ccGo .norm cs

/-- Embedding of `re.sub(r',\s*,+', ',', s)`: a comma followed by optional
whitespace and at least one more comma collapses to a single comma
(non-overlapping, left to right, greedy trailing `,+`). -/
def commaCollapse (s : List Char) : List Char := ccGo .norm s

/-! ## `clean_and_prepare_captions.clean_caption` -/

/-- Configuration constant `MAX_CAPTION_WORDS` of
`clean_and_prepare_captions.py`. -/
def MAX_CAPTION_WORDS : Nat := 30

/-- Characters stripped by `caption.strip(' .,')`. -/
def stripCharsCP : List Char := [' ', '.', ',']

/-- Python `caption[0].upper() + caption[1:]` guarded by `if caption:`. -/
def capFirst : List Char → List Char
  | [] => []
  | c :: cs => upperChar c :: cs

/-- The caption value just after `caption.strip(' .,')` in
`clean_and_prepare_captions.clean_caption` (all phrase removals,
`'. '`/`'..'` replacements, whitespace collapse, comma collapse, and the
strip have run). -/
def captionMid (s : List Char) : List Char :=
  stripSet stripCharsCP
    (commaCollapse
      (collapseWs
        (replace2 '.' '.' ['.']
          (replace2 '.' ' ' [',', ' ']
            (subDelete phrasesHe
              (subDelete phrasesShe
                (subDelete phrasesThe
                  (subDelete phrasesThis s))))))))

/-- Remainder of `clean_caption` after the strip: word limit, capitalise
first character, `rstrip(',')`, `strip()` (the final `+ '.'` is added in
`cleanCaption`). -/
def captionBody (t : List Char) : List Char :=
  stripWsBoth (dropEndWhile (fun c => c = ',')
    (capFirst
      (if MAX_CAPTION_WORDS < (splitWs t).length
       then joinSp ((splitWs t).take MAX_CAPTION_WORDS) else t)))

/-- Embedding of `clean_and_prepare_captions.clean_caption`. -/
def cleanCaption (s : List Char) : List Char := captionBody (captionMid s) ++ ['.']

/-! ## `process_all_captions.clean_caption` -/

/-- Embedding of `process_all_captions.clean_caption`: collapse whitespace
of the stripped text, truncate to 300 characters, strip again (the empty
string is returned unchanged, mirroring `if not text: return ""`). -/
def cleanCaptionPA (t : List Char) : List Char :=
  if t.isEmpty then []
  else
    stripWsBoth
      (if 300 < (collapseWs (stripWsBoth t)).length
       then (collapseWs (stripWsBoth t)).take 300
       else collapseWs (stripWsBoth t))

/-! ## File names and image/caption matching -/

/-- A file name split as pathlib does: `stem` (name without the last
suffix) and `ext` (the last suffix, dot included). -/
structure FName where
  stem : String
  ext : String
deriving DecidableEq

/-- Full file name, `stem + ext` (pathlib `.name`). -/
def FName.fullName (f : FName) : String := f.stem ++ f.ext

/-- Extension list tried by `clean_and_prepare_captions.main` when looking
for the image belonging to a caption stem. -/
def imageExts : List String := [".jpg", ".jpeg", ".png", ".JPG", ".JPEG", ".PNG"]

/-- Glob pattern order of `process_all_captions.find_image_files`. -/
def imageGlobPatterns : List String := [".jpg", ".jpeg", ".png", ".JPG", ".PNG", ".JPEG"]

/-- Worker for `find_image_files`: one `glob` per extension pattern, results
concatenated in pattern order. -/
def filesForPatterns (files : List FName) : List String → List FName
  | [] => []
  | e :: es => files.filter (fun f => f.ext == e) ++ filesForPatterns files es

/-- Embedding of `process_all_captions.find_image_files` over the directory
content `files`. -/
def find_image_files (files : List FName) : List FName :=
  filesForPatterns files imageGlobPatterns

/-- Embedding of `process_all_captions.match_images_captions`: for each
caption file, the first image file with an equal stem (the inner loop
breaks at the first hit). -/
def match_images_captions (captions images : List FName) : List (FName × FName) :=
  captions.filterMap
    (fun cap => (images.find? (fun img => img.stem == cap.stem)).map (fun img => (img, cap)))

/-- The same search driven from the image side: for each image file, the
first caption file with an equal stem. -/
def matchFromImages (captions images : List FName) : List (FName × FName) :=
  images.filterMap
    (fun img => (captions.find? (fun cap => cap.stem == img.stem)).map (fun cap => (img, cap)))

/-! ## `read_caption_file` and retry counting -/

/-- Encoding list of `process_all_captions.read_caption_file`. -/
def encodingList : List String := ["utf-8", "utf-8-sig", "latin-1", "cp1252", "iso-8859-1"]

/-- Try the encodings in order; a caption file is modelled by the function
`readF` from encoding name to decode result. -/
def tryEncodings (readF : String → Option (List Char)) : List String → Option (List Char)
  | [] => none
  | e :: es => match readF e with
    | some t => some t
    | none => tryEncodings readF es

/-- Embedding of `process_all_captions.read_caption_file`. -/
def read_caption_file (readF : String → Option (List Char)) : Option (List Char) :=
  tryEncodings readF encodingList

/-- Number of `open`/`read` attempts `read_caption_file` performs on one
file (one per encoding until the first success). -/
def readAttemptCount (readF : String → Option (List Char)) : List String → Nat
  | [] => 0
  | e :: es => match readF e with
    | some _ => 1
    | none => 1 + readAttemptCount readF es

/-- Number of attempts made to place one image into the output directory
(`os.symlink`, and on failure `shutil.copy2`). -/
def placeImageAttempts (symlinkOk : Bool) : Nat := if symlinkOk then 1 else 2

/-- Number of `from_pretrained` attempts in
`caption_generator_finetuned.py` (one retry with relaxed options after a
`ValueError`). -/
def modelLoadAttempts (firstLoadOk : Bool) : Nat := if firstLoadOk then 1 else 2

/-- A concrete caption file that decodes only under `latin-1`. -/
def exReadLatin1 : String → Option (List Char) :=
  fun e => if e = "latin-1" then some ['x'] else none

/-! ## Output records and DataFrame column names -/

/-- Row dict built by `process_all_captions.main` (insertion order). -/
def processAllRecord (imgName caption : String) : List (String × String) :=
  [("image_id", imgName), ("caption", caption)]

/-- Row dict built by `clean_and_prepare_captions.main`. -/
def cleanPrepRecord (imageId orig cleaned : String) : List (String × String) :=
  [("image_id", imageId), ("original_caption", orig), ("cleaned_caption", cleaned)]

/-- Row dict built by `caption_generator_finetuned.py`
(`{"image": img_name, "caption": fine_caption}`). -/
def generatorRecord (imgName caption : String) : List (String × String) :=
  [("image", imgName), ("caption", caption)]

/-- Column names of `pd.DataFrame(records)` for a list of uniform row
dicts: the keys of the first row, in insertion order. -/
def dfColumns : List (List (String × String)) → List String
  | [] => []
  | r :: _ => r.map Prod.fst

/-! ## `make_criminal_style_caption` -/

/-- Embedding of
`caption_generator_finetuned.make_criminal_style_caption`; the sequential
`if` re-assignments of `emotion` are transcribed as shadowing lets. -/
def make_criminal_style_caption (base_caption : String) (attributes : List String) : String :=
  let gender := if attributes.contains "Male" then "male" else "female"
  let emotion := "neutral expression"
  let emotion := if attributes.contains "Smiling" then "smiling expression" else emotion
  let emotion := if attributes.contains "Angry" then "angry look" else emotion
  let emotion := if attributes.contains "Sad" then "sad face" else emotion
  let emotion := if attributes.contains "Surprised" then "surprised expression" else emotion
  let hair :=
    if attributes.contains "Bald" then "bald head"
    else if attributes.contains "Black_Hair" then "black hair"
    else if attributes.contains "Blond_Hair" then "blond hair"
    else if attributes.contains "Brown_Hair" then "brown hair"
    else if attributes.contains "Gray_Hair" then "gray hair"
    else "short hair"
  let beard :=
    if attributes.contains "Beard" || attributes.contains "Goatee" then "with facial hair"
    else "no beard"
  "A " ++ gender ++ " suspect with " ++ hair ++ ", " ++ beard ++ ", and a " ++ emotion ++ "."

/-! ## Per-file counters (`matched/skipped`, `success/failed`) -/

/-- A caption file as seen by `clean_and_prepare_captions.main`: its stem
and the result of reading it (`none` = the read raised). -/
structure CPFile where
  stem : String
  content : Option (List Char)

/-- A row appended to `results` by `clean_and_prepare_captions.main`. -/
structure CPRow where
  image_id : String
  original : List Char
  cleaned : List Char
deriving DecidableEq

/-- Processing of one caption file by `clean_and_prepare_captions.main`:
`none` means the skip counter is incremented (no matching image, read
failure, or caption shorter than 5 characters); `imgEx` tells which file
names exist in the image directory. -/
def cpProcess (imgEx : String → Bool) (f : CPFile) : Option CPRow :=
  match imageExts.find? (fun e => imgEx (f.stem ++ e)) with
  | none => none
  | some e =>
    match f.content with
    | none => none
    | some raw =>
      let orig := stripWsBoth raw
      if orig.length < 5 then none
      else some ⟨f.stem ++ e, orig, cleanCaption orig⟩

/-- The caption-processing loop of `clean_and_prepare_captions.main`:
returns `(matched_count, skipped_count, results)`. -/
def cpRun (imgEx : String → Bool) : List CPFile → Nat × Nat × List CPRow
  | [] => (0, 0, [])
  | f :: fs =>
    let rest := cpRun imgEx fs
    match cpProcess imgEx f with
    | some row => (rest.1 + 1, rest.2.1, row :: rest.2.2)
    | none => (rest.1, rest.2.1 + 1, rest.2.2)

/-- A row appended to `results` by `process_all_captions.main`. -/
structure PARow where
  image_id : String
  caption : List Char
deriving DecidableEq

/-- Processing of one matched pair by `process_all_captions.main`:
`none` means the `failed` counter is incremented (read returned `None` or
the empty — falsy — string). -/
def paProcess (img : FName) (rd : Option (List Char)) : Option PARow :=
  match rd with
  | none => none
  | some t => if t.isEmpty then none else some ⟨img.fullName, cleanCaptionPA t⟩

/-- The processing loop of `process_all_captions.main` over the matched
pairs: returns `(success, failed, results)`. -/
def paRun : List (FName × Option (List Char)) → Nat × Nat × List PARow
  | [] => (0, 0, [])
  | (img, rd) :: ps =>
    let rest := paRun ps
    match paProcess img rd with
    | some row => (rest.1 + 1, rest.2.1, row :: rest.2.2)
    | none => (rest.1, rest.2.1 + 1, rest.2.2)

/-! ## The output training directory as a store -/

/-- An entry of the output training directory: an image placed by
symlink/copy from `src`, or a text file with the given content. -/
inductive Entry where
  | img (src : String)
  | txt (content : List Char)
deriving DecidableEq

/-- The output directory: an association list from file name to entry. -/
abbrev Store := List (String × Entry)

/-- Directory lookup. -/
def lookupS : Store → String → Option Entry
  | [], _ => none
  | (k, v) :: rest, k' => if k = k' then some v else lookupS rest k'

/-- Create or overwrite a file. -/
def setS : Store → String → Entry → Store
  | [], k, v => [(k, v)]
  | (k', v') :: rest, k, v =>
    if k' = k then (k, v) :: rest else (k', v') :: setS rest k v

/-- Python `image_id.split('.')[0]`: everything before the first dot. -/
def stemFirstDot (s : String) : String :=
  String.mk (s.data.takeWhile (fun c => c ≠ '.'))

/-- pathlib stem with respect to the last dot (used by `with_suffix`);
for a name without a dot this is the whole name. -/
def stemLastDot (s : List Char) : List Char :=
  if s.contains '.' then ((s.reverse.dropWhile (fun c => c ≠ '.')).drop 1).reverse
  else s

/-- `dst_image.with_suffix('.txt')`: the name with its last suffix
replaced by `.txt`. -/
def txtNameOf (name : String) : String :=
  String.mk (stemLastDot name.data ++ ".txt".data)

/-- Source image resolved by the save loop of
`clean_and_prepare_captions.main` for a CSV row: try the extension list on
the part of `image_id` before the first dot, falling back to `image_id`
itself. -/
def cpSrcName (srcEx : String → Bool) (imageId : String) : String :=
  match imageExts.find? (fun e => srcEx (stemFirstDot imageId ++ e)) with
  | some e => stemFirstDot imageId ++ e
  | none => imageId

/-- The save step of `clean_and_prepare_captions.main` for one CSV row: if
the resolved source image exists, place the image unless the destination
already exists, then write/overwrite the `.txt` caption file.  Returns the
new store and whether `saved_count` was incremented. -/
def cpSaveRow (srcEx : String → Bool) (st : Store) (row : CPRow) : Store × Bool :=
  if srcEx (cpSrcName srcEx row.image_id) then
    (setS (if (lookupS st row.image_id).isSome then st
           else setS st row.image_id (.img (cpSrcName srcEx row.image_id)))
      (txtNameOf row.image_id) (.txt row.cleaned), true)
  else (st, false)

/-- The save step of `process_all_captions.main` for one successfully read
pair: place the image under `img.fullName` unless present, then
write/overwrite the same-stem `.txt` file with the cleaned caption. -/
def paSaveRow (st : Store) (img : FName) (caption : List Char) : Store :=
  setS (if (lookupS st img.fullName).isSome then st
        else setS st img.fullName (.img img.fullName))
    (txtNameOf img.fullName) (.txt caption)

/-! ## CSV writing and reading (`DataFrame.to_csv(index=False)` /
`pandas.read_csv`) -/

/-- Caption with 31 words whose 30th word ends in a `'.'` that survives
cleaning (the tab keeps `'. '` replacement from firing). -/
def exC10 : List Char :=
  ("w w w w w w w w w w w w w w w w w w w w w w w w w w w w w a.\tb").data

/-- The claim's reading of "ends in a single `'.'`": last character is a
dot and the character before it (if any) is not. -/
def endsSingleDot (s : List Char) : Bool :=
  match s.reverse with
  | '.' :: '.' :: _ => false
  | '.' :: _ => true
  | _ => false

/-! # Lemmas -/

/-! ## Word counting -/

theorem wcAux_append (u v : List Char) (b : Bool) :
    wcAux b (u ++ v) = wcAux b u + wcAux (endFlag b u) v := by
  induction u generalizing b with
  | nil => simp [wcAux, endFlag]
  | cons c cs ih =>
    by_cases h : isWS c = true
    · simp [wcAux, endFlag, h, ih]
    · simp only [Bool.not_eq_true] at h
      simp [wcAux, endFlag, h, ih]
      omega

theorem wcAux_mono_append (u v : List Char) (b : Bool) :
    wcAux b u ≤ wcAux b (u ++ v) := by
  rw [wcAux_append]
  omega

theorem endFlag_append (u v : List Char) (b : Bool) :
    endFlag b (u ++ v) = endFlag (endFlag b u) v := by
  induction u generalizing b with
  | nil => simp [endFlag]
  | cons c cs ih => simp [endFlag, ih]

theorem wcAux_dropWhile_ws (s : List Char) :
    wcAux false (s.dropWhile isWS) = wcAux false s := by
  induction s with
  | nil => rfl
  | cons c cs ih =>
    by_cases h : isWS c = true
    · simp [List.dropWhile_cons, h, ih, wcAux]
    · simp only [Bool.not_eq_true] at h
      simp [List.dropWhile_cons, h]

theorem isWS_upperChar (c : Char) : isWS (upperChar c) = isWS c := by
  unfold upperChar
  cases h : casePairs.find? (fun p => p.1 == c) with
  | none => rfl
  | some p =>
    have hp : p ∈ casePairs := List.mem_of_find?_eq_some h
    have hc : p.1 = c := by simpa using List.find?_some h
    have hall : casePairs.all (fun p => !isWS p.1 && !isWS p.2) = true := by decide
    have := List.all_eq_true.mp hall p hp
    simp only [Bool.and_eq_true, Bool.not_eq_true'] at this
    rw [this.2, ← hc, this.1]

theorem upperChar_ne_comma (c : Char) (h : c ≠ ',') : upperChar c ≠ ',' := by
  unfold upperChar
  cases hf : casePairs.find? (fun p => p.1 == c) with
  | none => exact h
  | some p =>
    have hp : p ∈ casePairs := List.mem_of_find?_eq_some hf
    have hall : casePairs.all (fun p => !(p.2 == ',')) = true := by decide
    have := List.all_eq_true.mp hall p hp
    simpa using this

theorem wcAux_capFirst (t : List Char) : wcAux false (capFirst t) = wcAux false t := by
  cases t with
  | nil => rfl
  | cons c cs =>
    simp only [capFirst, wcAux, isWS_upperChar]

/-! ## `splitWs` -/

theorem swGo_length (s : List Char) : ∀ cur,
    (swGo cur s).length = (if cur.isEmpty then 0 else 1) + wcAux (!cur.isEmpty) s := by
  induction s with
  | nil =>
    intro cur
    by_cases h : cur.isEmpty <;> simp [swGo, wcAux, h]
  | cons c cs ih =>
    intro cur
    by_cases hws : isWS c = true
    · by_cases h : cur.isEmpty = true
      · simp [swGo, hws, h, ih, wcAux]
      · simp only [Bool.not_eq_true] at h
        simp [swGo, hws, h, ih, wcAux]
        omega
    · simp only [Bool.not_eq_true] at hws
      by_cases h : cur.isEmpty = true
      · simp [swGo, hws, h, ih, wcAux]
      · simp only [Bool.not_eq_true] at h
        simp [swGo, hws, h, ih, wcAux]

theorem wordCount_eq_wcAux (s : List Char) : wordCount s = wcAux false s := by
  have := swGo_length s []
  simpa [wordCount, splitWs] using this

theorem swGo_mem (s : List Char) : ∀ cur w, (∀ c ∈ cur, isWS c = false) →
    w ∈ swGo cur s → w ≠ [] ∧ ∀ c ∈ w, isWS c = false := by
  induction s with
  | nil =>
    intro cur w hcur hw
    by_cases h : cur.isEmpty = true
    · simp [swGo, h] at hw
    · simp only [Bool.not_eq_true] at h
      simp [swGo, h] at hw
      subst hw
      refine ⟨?_, ?_⟩
      · simp only [ne_eq, List.reverse_eq_nil_iff]
        intro hc
        subst hc
        simp at h
      · intro c hc
        exact hcur c (List.mem_reverse.mp hc)
  | cons c cs ih =>
    intro cur w hcur hw
    by_cases hws : isWS c = true
    · by_cases h : cur.isEmpty = true
      · simp only [swGo, hws, h, if_true] at hw
        exact ih [] w (by simp) hw
      · simp only [Bool.not_eq_true] at h
        simp only [swGo, hws, h, if_true, Bool.false_eq_true, if_false, List.mem_cons] at hw
        rcases hw with hw | hw
        · subst hw
          refine ⟨?_, ?_⟩
          · simp only [ne_eq, List.reverse_eq_nil_iff]
            intro hc; subst hc; simp at h
          · intro d hd
            exact hcur d (List.mem_reverse.mp hd)
        · exact ih [] w (by simp) hw
    · simp only [Bool.not_eq_true] at hws
      simp only [swGo, hws, Bool.false_eq_true, if_false] at hw
      refine ih (c :: cur) w ?_ hw
      intro d hd
      rcases List.mem_cons.mp hd with h | h
      · subst h; exact hws
      · exact hcur d h

theorem splitWs_mem (s w : List Char) (hw : w ∈ splitWs s) :
    w ≠ [] ∧ ∀ c ∈ w, isWS c = false := by
  exact swGo_mem s [] w (by simp) hw

theorem swGo_word (w : List Char) : ∀ cur rest, (∀ c ∈ w, isWS c = false) →
    swGo cur (w ++ rest) = swGo (w.reverse ++ cur) rest := by
  induction w with
  | nil => intro cur rest _; simp
  | cons c cs ih =>
    intro cur rest hw
    have hc : isWS c = false := hw c (by simp)
    simp only [List.cons_append, swGo, hc, Bool.false_eq_true, if_false, List.append_eq]
    rw [ih (c :: cur) rest (fun d hd => hw d (by simp [hd]))]
    simp

theorem splitWs_all_nonws (w : List Char) (h1 : w ≠ []) (h2 : ∀ c ∈ w, isWS c = false) :
    splitWs w = [w] := by
  unfold splitWs
  have := swGo_word w [] [] h2
  simp only [List.append_nil] at this
  rw [this]
  simp [swGo, h1]

theorem splitWs_word_sp (w rest : List Char) (h1 : w ≠ []) (h2 : ∀ c ∈ w, isWS c = false) :
    splitWs (w ++ ' ' :: rest) = w :: splitWs rest := by
  unfold splitWs
  rw [swGo_word w [] (' ' :: rest) h2]
  simp only [List.append_nil, swGo]
  have : isWS ' ' = true := by decide
  rw [if_pos this]
  have hne : (w.reverse).isEmpty = false := by
    simp [List.isEmpty_iff, h1]
  simp [hne]

theorem splitWs_joinSp (L : List (List Char))
    (h : ∀ w ∈ L, w ≠ [] ∧ ∀ c ∈ w, isWS c = false) :
    splitWs (joinSp L) = L := by
  induction L with
  | nil => rfl
  | cons w L ih =>
    cases L with
    | nil =>
      obtain ⟨h1, h2⟩ := h w (by simp)
      simpa [joinSp] using splitWs_all_nonws w h1 h2
    | cons v L' =>
      obtain ⟨h1, h2⟩ := h w (by simp)
      simp only [joinSp]
      rw [splitWs_word_sp w _ h1 h2]
      rw [ih (fun u hu => h u (by simp [hu]))]

theorem swGo_head (s : List Char) : ∀ cur, cur ≠ [] →
    ∃ t rest, swGo cur s = (cur.reverse ++ t) :: rest := by
  induction s with
  | nil =>
    intro cur h
    refine ⟨[], [], ?_⟩
    simp [swGo, List.isEmpty_iff, h]
  | cons c cs ih =>
    intro cur h
    by_cases hws : isWS c = true
    · refine ⟨[], swGo [] cs, ?_⟩
      simp [swGo, hws, List.isEmpty_iff, h]
    · simp only [Bool.not_eq_true] at hws
      obtain ⟨t, rest, ht⟩ := ih (c :: cur) (by simp)
      refine ⟨c :: t, rest, ?_⟩
      simp only [swGo, hws, Bool.false_eq_true, if_false]
      rw [ht]
      simp

/-! ## Stripping -/

theorem dropWhile_append_singleton (p : Char → Bool) (u : List Char) (a : Char)
    (h : p a = false) : List.dropWhile p (u ++ [a]) = List.dropWhile p u ++ [a] := by
  induction u with
  | nil => simp [List.dropWhile, h]
  | cons c cs ih =>
    by_cases hc : p c = true
    · simp [List.dropWhile_cons, hc, ih]
    · simp only [Bool.not_eq_true] at hc
      simp [List.dropWhile_cons, hc]

theorem dropEndWhile_shape (p : Char → Bool) (s : List Char) :
    dropEndWhile p s = [] ∨ ∃ u c, dropEndWhile p s = u ++ [c] ∧ p c = false := by
  unfold dropEndWhile
  cases h : s.reverse.dropWhile p with
  | nil => left; simp
  | cons c cs =>
    right
    refine ⟨cs.reverse, c, ?_, ?_⟩
    · simp [h]
    · have := List.head?_dropWhile_not p s.reverse
      rw [h] at this
      simpa using this

theorem exists_append_dropEndWhile (p : Char → Bool) (s : List Char) :
    ∃ v, s = dropEndWhile p s ++ v := by
  refine ⟨(s.reverse.takeWhile p).reverse, ?_⟩
  unfold dropEndWhile
  rw [← List.reverse_append, List.takeWhile_append_dropWhile, List.reverse_reverse]

theorem dropEndWhile_cons_of_neg (p : Char → Bool) (x : Char) (u : List Char)
    (h : p x = false) : dropEndWhile p (x :: u) = x :: dropEndWhile p u := by
  unfold dropEndWhile
  rw [List.reverse_cons, dropWhile_append_singleton p u.reverse x h]
  simp

theorem wcAux_le_of_dropEndWhile (p : Char → Bool) (s : List Char) (b : Bool) :
    wcAux b (dropEndWhile p s) ≤ wcAux b s := by
  obtain ⟨v, hv⟩ := exists_append_dropEndWhile p s
  conv_rhs => rw [hv]
  exact wcAux_mono_append _ _ _

/-! ## The word bound of the tail of `clean_caption` -/

theorem wordCount_tail_le (a : List Char) :
    wordCount (stripWsBoth (dropEndWhile (fun c => c = ',') (capFirst a)) ++ ['.'])
      ≤ max 1 (wordCount a) := by
  rw [wordCount_eq_wcAux, wordCount_eq_wcAux]
  set y := dropEndWhile (fun c => c = ',') (capFirst a) with hy
  have hya : wcAux false y ≤ wcAux false a := by
    calc wcAux false y ≤ wcAux false (capFirst a) := wcAux_le_of_dropEndWhile _ _ _
    _ = wcAux false a := wcAux_capFirst a
  rcases dropEndWhile_shape isWS y with hsh | ⟨u, d, hud, hd⟩
  · have : stripWsBoth y = [] := by
      simp [stripWsBoth, rstripWs, hsh, lstripWs]
    rw [this]
    have h1 : wcAux false ([] ++ ['.']) = 1 := by decide
    rw [h1]
    exact le_max_left 1 _
  · have hz : stripWsBoth y = u.dropWhile isWS ++ [d] := by
      simp only [stripWsBoth, rstripWs, hud, lstripWs]
      exact dropWhile_append_singleton isWS u d hd
    rw [hz]
    have h1 : wcAux false ((u.dropWhile isWS ++ [d]) ++ ['.'])
        = wcAux false (u.dropWhile isWS ++ [d]) := by
      rw [wcAux_append]
      have hend : endFlag false (u.dropWhile isWS ++ [d]) = true := by
        rw [endFlag_append]
        simp [endFlag, hd]
      rw [hend]
      simp [wcAux]
    rw [h1]
    have h2 : wcAux false (u.dropWhile isWS ++ [d]) ≤ wcAux false a := by
      calc wcAux false (u.dropWhile isWS ++ [d])
          = wcAux false ((u ++ [d]).dropWhile isWS) := by
            rw [dropWhile_append_singleton isWS u d hd]
        _ = wcAux false (u ++ [d]) := wcAux_dropWhile_ws _
        _ = wcAux false (rstripWs y) := by rw [← hud]; rfl
        _ ≤ wcAux false y := wcAux_le_of_dropEndWhile _ _ _
        _ ≤ wcAux false a := hya
    omega

/-! ## Length bounds -/

theorem length_dropEndWhile_le (p : Char → Bool) (s : List Char) :
    (dropEndWhile p s).length ≤ s.length := by
  unfold dropEndWhile
  calc (s.reverse.dropWhile p).reverse.length
      = (s.reverse.dropWhile p).length := List.length_reverse _
    _ ≤ s.reverse.length := (List.dropWhile_sublist p).length_le
    _ = s.length := List.length_reverse _

theorem length_stripWsBoth_le (s : List Char) : (stripWsBoth s).length ≤ s.length := by
  unfold stripWsBoth lstripWs rstripWs
  calc ((dropEndWhile isWS s).dropWhile isWS).length
      ≤ (dropEndWhile isWS s).length := (List.dropWhile_sublist isWS).length_le
    _ ≤ s.length := length_dropEndWhile_le isWS s

/-! ## Claim C1 -/

/-- Claim C1: for every input caption string, the cleaned caption of
`clean_and_prepare_captions.clean_caption` has at most `MAX_CAPTION_WORDS`
(30) words, and the cleaned caption of `process_all_captions.clean_caption`
has at most its configured limit of 300 characters. -/
theorem c1_cleaned_caption_bounded :
    (∀ s, wordCount (cleanCaption s) ≤ MAX_CAPTION_WORDS) ∧
    (∀ t, (cleanCaptionPA t).length ≤ 300) := by
  constructor
  · intro s
    show wordCount (captionBody (captionMid s) ++ ['.']) ≤ MAX_CAPTION_WORDS
    set t := captionMid s with ht
    unfold captionBody
    refine le_trans (wordCount_tail_le _) ?_
    rw [Nat.max_le]
    refine ⟨by norm_num [MAX_CAPTION_WORDS], ?_⟩
    by_cases h : MAX_CAPTION_WORDS < (splitWs t).length
    · rw [if_pos h]
      have hgood : ∀ w ∈ (splitWs t).take MAX_CAPTION_WORDS,
          w ≠ [] ∧ ∀ c ∈ w, isWS c = false :=
        fun w hw => splitWs_mem t w (List.take_subset _ _ hw)
      unfold wordCount
      rw [splitWs_joinSp _ hgood, List.length_take]
      omega
    · rw [if_neg h]
      unfold wordCount
      omega
  · intro t
    unfold cleanCaptionPA
    by_cases h : t.isEmpty = true
    · simp [h]
    · simp only [Bool.not_eq_true] at h
      rw [h]
      simp only [Bool.false_eq_true, if_false]
      refine le_trans (length_stripWsBoth_le _) ?_
      by_cases h3 : 300 < (collapseWs (stripWsBoth t)).length
      · rw [if_pos h3, List.length_take]
        omega
      · rw [if_neg h3]
        omega

/-! ## Characters of the cleaned caption prefix -/

theorem collapseGo_ws_space (s : List Char) : ∀ b c, c ∈ collapseGo b s →
    isWS c = true → c = ' ' := by
  induction s with
  | nil => intro b c hc; simp [collapseGo] at hc
  | cons d cs ih =>
    intro b c hc hws
    by_cases hd : isWS d = true
    · by_cases hb : b = true
      · subst hb
        simp only [collapseGo, hd, if_true] at hc
        exact ih true c hc hws
      · simp only [Bool.not_eq_true] at hb
        subst hb
        simp only [collapseGo, hd, if_true, Bool.false_eq_true, if_false,
          List.mem_cons] at hc
        rcases hc with hc | hc
        · exact hc
        · exact ih true c hc hws
    · simp only [Bool.not_eq_true] at hd
      simp only [collapseGo, hd, Bool.false_eq_true, if_false, List.mem_cons] at hc
      rcases hc with hc | hc
      · subst hc; rw [hws] at hd; cases hd
      · exact ih false c hc hws

theorem ccGo_chars (s : List Char) : ∀ mode c, c ∈ ccGo mode s →
    c = ',' ∨ c ∈ s ∨ c ∈ modeChars mode := by
  induction s with
  | nil =>
    intro mode c hc
    cases mode with
    | norm => simp [ccGo] at hc
    | pend ws =>
      rw [show ccGo (.pend ws) [] = ',' :: ws.reverse from rfl, List.mem_cons] at hc
      rcases hc with hc | hc
      · exact Or.inl hc
      · exact Or.inr (Or.inr (by simpa [modeChars] using List.mem_reverse.mp hc))
    | run => simp [ccGo] at hc
  | cons d cs ih =>
    intro mode c hc
    cases mode with
    | norm =>
      by_cases hd : d = ','
      · subst hd
        rw [show ccGo .norm (',' :: cs) = ccGo (.pend []) cs by simp [ccGo]] at hc
        rcases ih (.pend []) c hc with h | h | h
        · exact Or.inl h
        · exact Or.inr (Or.inl (List.mem_cons_of_mem _ h))
        · simp [modeChars] at h
      · rw [show ccGo .norm (d :: cs) = d :: ccGo .norm cs by simp [ccGo, hd],
          List.mem_cons] at hc
        rcases hc with hc | hc
        · exact Or.inr (Or.inl (by simp [hc]))
        · rcases ih .norm c hc with h | h | h
          · exact Or.inl h
          · exact Or.inr (Or.inl (List.mem_cons_of_mem _ h))
          · simp [modeChars] at h
    | pend ws =>
      by_cases hd : d = ','
      · subst hd
        rw [show ccGo (.pend ws) (',' :: cs) = ',' :: ccGo .run cs by simp [ccGo],
          List.mem_cons] at hc
        rcases hc with hc | hc
        · exact Or.inl hc
        · rcases ih .run c hc with h | h | h
          · exact Or.inl h
          · exact Or.inr (Or.inl (List.mem_cons_of_mem _ h))
          · simp [modeChars] at h
      · by_cases hw : isWS d = true
        · rw [show ccGo (.pend ws) (d :: cs) = ccGo (.pend (d :: ws)) cs by
            simp [ccGo, hd, hw]] at hc
          rcases ih (.pend (d :: ws)) c hc with h | h | h
          · exact Or.inl h
          · exact Or.inr (Or.inl (List.mem_cons_of_mem _ h))
          · rw [show modeChars (CCMode.pend (d :: ws)) = d :: ws from rfl,
              List.mem_cons] at h
            rcases h with h | h
            · exact Or.inr (Or.inl (by simp [h]))
            · exact Or.inr (Or.inr (by simpa [modeChars] using h))
        · simp only [Bool.not_eq_true] at hw
          rw [show ccGo (.pend ws) (d :: cs)
                = ',' :: (ws.reverse ++ d :: ccGo .norm cs) by simp [ccGo, hd, hw],
            List.mem_cons, List.mem_append, List.mem_cons] at hc
          rcases hc with hc | hc | hc | hc
          · exact Or.inl hc
          · exact Or.inr (Or.inr (by simpa [modeChars] using List.mem_reverse.mp hc))
          · exact Or.inr (Or.inl (by simp [hc]))
          · rcases ih .norm c hc with h | h | h
            · exact Or.inl h
            · exact Or.inr (Or.inl (List.mem_cons_of_mem _ h))
            · simp [modeChars] at h
    | run =>
      by_cases hd : d = ','
      · subst hd
        rw [show ccGo .run (',' :: cs) = ccGo .run cs by simp [ccGo]] at hc
        rcases ih .run c hc with h | h | h
        · exact Or.inl h
        · exact Or.inr (Or.inl (List.mem_cons_of_mem _ h))
        · simp [modeChars] at h
      · rw [show ccGo .run (d :: cs) = d :: ccGo .norm cs by simp [ccGo, hd],
          List.mem_cons] at hc
        rcases hc with hc | hc
        · exact Or.inr (Or.inl (by simp [hc]))
        · rcases ih .norm c hc with h | h | h
          · exact Or.inl h
          · exact Or.inr (Or.inl (List.mem_cons_of_mem _ h))
          · simp [modeChars] at h

theorem mem_dropEndWhile_subset (p : Char → Bool) (s : List Char) (c : Char)
    (hc : c ∈ dropEndWhile p s) : c ∈ s := by
  unfold dropEndWhile at hc
  have := List.dropWhile_subset p (List.mem_reverse.mp hc)
  exact List.mem_reverse.mp this

theorem mem_stripSet_subset (set s : List Char) (c : Char)
    (hc : c ∈ stripSet set s) : c ∈ s := by
  unfold stripSet at hc
  exact List.dropWhile_subset _ (mem_dropEndWhile_subset _ _ _ hc)

theorem mem_captionMid_ws_space (s : List Char) (c : Char)
    (hc : c ∈ captionMid s) (hws : isWS c = true) : c = ' ' := by
  unfold captionMid at hc
  have h1 := mem_stripSet_subset _ _ _ hc
  rcases ccGo_chars _ .norm c h1 with h | h | h
  · subst h; cases hws
  · exact collapseGo_ws_space _ false c h hws
  · simp [modeChars] at h

theorem stripSet_head_not_mem (set s : List Char) (c : Char) (cs : List Char)
    (h : stripSet set s = c :: cs) : set.contains c = false := by
  unfold stripSet at h
  obtain ⟨v, hv⟩ := exists_append_dropEndWhile set.contains (s.dropWhile set.contains)
  rw [h] at hv
  have hh : (s.dropWhile set.contains).head? = some c := by
    rw [hv]; rfl
  have := List.head?_dropWhile_not set.contains s
  rw [hh] at this
  exact this

/-! ## Head structure of the cleaned caption -/

theorem joinSp_take_head (n : Nat) (c : Char) (t : List Char) (rest : List (List Char))
    (hn : 0 < n) : (joinSp (((c :: t) :: rest).take n)).head? = some c := by
  cases n with
  | zero => cases hn
  | succ m =>
    rw [List.take_succ_cons]
    cases h : rest.take m with
    | nil => simp [joinSp]
    | cons v X => simp [joinSp]

theorem head_survives (x : Char) (u : List Char) (hx1 : isWS x = false)
    (hx2 : x ≠ ',') :
    (stripWsBoth (dropEndWhile (fun c => c = ',') (x :: u))).head? = some x := by
  have h1 : (fun c => decide (c = ',')) x = false := by simp [hx2]
  rw [show (fun c => decide (c = ',')) = (fun c : Char => decide (c = ',')) from rfl]
  rw [dropEndWhile_cons_of_neg _ x u h1]
  unfold stripWsBoth rstripWs
  rw [dropEndWhile_cons_of_neg isWS x _ hx1]
  unfold lstripWs
  rw [List.dropWhile_cons_of_neg (by simp [hx1])]
  rfl

theorem splitWs_cons_shape (c : Char) (cs : List Char) (hc : isWS c = false) :
    ∃ t rest, splitWs (c :: cs) = (c :: t) :: rest := by
  unfold splitWs
  rw [show swGo [] (c :: cs) = swGo [c] cs by simp [swGo, hc]]
  obtain ⟨t, rest, ht⟩ := swGo_head cs [c] (by simp)
  exact ⟨t, rest, by simpa using ht⟩

theorem captionBody_head (c : Char) (cs : List Char) (hws : isWS c = false)
    (hcomma : c ≠ ',') :
    (captionBody (c :: cs)).head? = some (upperChar c) := by
  unfold captionBody
  have hA : (if MAX_CAPTION_WORDS < (splitWs (c :: cs)).length
      then joinSp ((splitWs (c :: cs)).take MAX_CAPTION_WORDS)
      else c :: cs).head? = some c := by
    by_cases h : MAX_CAPTION_WORDS < (splitWs (c :: cs)).length
    · rw [if_pos h]
      obtain ⟨t, rest, ht⟩ := splitWs_cons_shape c cs hws
      rw [ht]
      exact joinSp_take_head _ c t rest (by decide)
    · rw [if_neg h]
      rfl
  obtain ⟨u, hu⟩ := List.head?_eq_some_iff.mp hA
  rw [hu]
  rw [show capFirst (c :: u) = upperChar c :: u from rfl]
  exact head_survives (upperChar c) u (by rw [isWS_upperChar]; exact hws)
    (upperChar_ne_comma c hcomma)

theorem captionMid_head_facts (s : List Char) (c : Char) (cs : List Char)
    (h : captionMid s = c :: cs) : isWS c = false ∧ c ≠ ',' := by
  have hset : stripCharsCP.contains c = false := stripSet_head_not_mem _ _ c cs h
  have hmem : c ∈ captionMid s := by rw [h]; exact List.mem_cons_self c cs
  have hc : c ≠ ' ' ∧ c ≠ '.' ∧ c ≠ ',' := by
    simpa [stripCharsCP] using hset
  refine ⟨?_, hc.2.2⟩
  by_contra hcon
  simp only [Bool.not_eq_false] at hcon
  exact hc.1 (mem_captionMid_ws_space s c hmem hcon)

/-! ## Claim C10 -/

/-- Claim C10 counterexample: on the concrete caption `exC10` the cleaned
caption ends in two dots, not a single `'.'` (the 30th word `a.` keeps its
dot through truncation and the final `+ '.'` adds another). -/
theorem c10_single_dot_counterexample :
    endsSingleDot (cleanCaption exC10) = false ∧
    (cleanCaption exC10).getLast? = some '.' := by
  constructor
  · rfl
  · rfl

/-- Claim C10, amended: `clean_caption` always returns a non-empty string
whose last character is `'.'` (though not always a single dot); an input
whose stripped caption is empty yields exactly `"."`; and when the stripped
caption is non-empty the first character of the result is its upper-cased
first character. -/
theorem c10_shape_amended :
    (∀ s, cleanCaption s ≠ [] ∧ (cleanCaption s).getLast? = some '.') ∧
    (∀ s, captionMid s = [] → cleanCaption s = ['.']) ∧
    (∀ s c cs, captionMid s = c :: cs → (cleanCaption s).head? = some (upperChar c)) := by
  refine ⟨fun s => ⟨by simp [cleanCaption], ?_⟩, fun s h => ?_, fun s c cs h => ?_⟩
  · exact List.getLast?_concat _
  · show captionBody (captionMid s) ++ ['.'] = ['.']
    rw [h]
    rfl
  · show (captionBody (captionMid s) ++ ['.']).head? = some (upperChar c)
    obtain ⟨hws, hcomma⟩ := captionMid_head_facts s c cs h
    rw [h]
    have := captionBody_head c cs hws hcomma
    obtain ⟨u, hu⟩ := List.head?_eq_some_iff.mp this
    rw [hu]
    rfl

/-- Witness for the amended claim C10 at concrete inputs. -/
theorem c10_shape_amended_witness :
    cleanCaption "".data = ['.'] ∧
    (cleanCaption "hi there".data).head? = some (upperChar 'h') :=
  ⟨c10_shape_amended.2.1 "".data (by decide),
   c10_shape_amended.2.2 "hi there".data 'h' "i there".data (by decide)⟩

/-! ## Claim C9 -/

/-- Claim C9: `make_criminal_style_caption` is a function of the
`attributes` argument alone — the `base_caption` argument has no influence
on the result. -/
theorem c9_base_caption_irrelevant (b1 b2 : String) (attributes : List String) :
    make_criminal_style_caption b1 attributes = make_criminal_style_caption b2 attributes := rfl

/-! ## Claim C4 -/

/-- Claim C4 counterexample: the CSV written by the fine-tuned caption
generator has column names `image` and `caption`, not `image_id` and
`caption` as the claim states. -/
theorem c4_columns_counterexample :
    dfColumns [generatorRecord "000001.jpg" "A male suspect."] = ["image", "caption"] ∧
    dfColumns [generatorRecord "000001.jpg" "A male suspect."] ≠ ["image_id", "caption"] := by
  constructor
  · rfl
  · decide

/-- Claim C4, amended: every non-empty run of `process_all_captions` writes
columns `image_id`, `caption`; `clean_and_prepare_captions` writes
`image_id`, `original_caption`, `cleaned_caption`; the fine-tuned caption
generator writes `image`, `caption` (not `image_id`). -/
theorem c4_columns_amended :
    (∀ n c rest, dfColumns (processAllRecord n c :: rest) = ["image_id", "caption"]) ∧
    (∀ i o cl rest, dfColumns (cleanPrepRecord i o cl :: rest)
        = ["image_id", "original_caption", "cleaned_caption"]) ∧
    (∀ n c rest, dfColumns (generatorRecord n c :: rest) = ["image", "caption"]) :=
  ⟨fun _ _ _ => rfl, fun _ _ _ _ => rfl, fun _ _ _ => rfl⟩

/-! ## Claim C5 -/

/-- Claim C5: per-file error handling is catch-and-skip — in
`clean_and_prepare_captions.main`, `matched_count + skipped_count` equals
the number of caption files processed, and in `process_all_captions.main`,
`success + failed` equals the number of matched pairs attempted; every file
contributes to exactly one counter and processing is total (no abort). -/
theorem c5_counters_partition :
    (∀ imgEx files, (cpRun imgEx files).1 + (cpRun imgEx files).2.1 = files.length) ∧
    (∀ pairs, (paRun pairs).1 + (paRun pairs).2.1 = pairs.length) := by
  constructor
  · intro imgEx files
    induction files with
    | nil => rfl
    | cons f fs ih =>
      cases h : cpProcess imgEx f <;> simp [cpRun, h] <;> omega
  · intro pairs
    induction pairs with
    | nil => rfl
    | cons p ps ih =>
      obtain ⟨img, rd⟩ := p
      cases h : paProcess img rd <;> simp [paRun, h] <;> omega

/-! ## Claim C8 -/

/-- Claim C8 counterexample: `read_caption_file` attempts to read a file
once per encoding until one succeeds — on a file that only decodes as
`latin-1` it makes 3 attempts, and the symlink-to-copy fallback makes a
second placement attempt — so per-file operations are attempted more than
once, contrary to the claim. -/
theorem c8_retries_counterexample :
    readAttemptCount exReadLatin1 encodingList = 3 ∧
    ¬ readAttemptCount exReadLatin1 encodingList ≤ 1 ∧
    placeImageAttempts false = 2 := by
  refine ⟨rfl, by decide, rfl⟩

/-- Claim C8, amended: the retries present in the scripts are bounded
best-effort fallbacks — `read_caption_file` attempts at most one read per
encoding (at most 5, stopping at the first success), image placement is
attempted at most twice (symlink then copy), and the model load at most
twice; `readAttemptCount` is bounded by the encoding list length in
general. -/
theorem c8_retries_amended :
    (∀ readF es, readAttemptCount readF es ≤ es.length) ∧
    (∀ readF e es t, readF e = some t → readAttemptCount readF (e :: es) = 1) ∧
    (∀ readF, readAttemptCount readF encodingList ≤ 5) ∧
    (∀ b, placeImageAttempts b ≤ 2) ∧
    (∀ b, modelLoadAttempts b ≤ 2) := by
  have hbound : ∀ readF (es : List String), readAttemptCount readF es ≤ es.length := by
    intro readF es
    induction es with
    | nil => exact Nat.le_refl 0
    | cons e es ih =>
      simp only [readAttemptCount]
      cases readF e <;> simp only [List.length_cons] <;> omega
  refine ⟨hbound, ?_, ?_, ?_, ?_⟩
  · intro readF e es t h
    simp [readAttemptCount, h]
  · intro readF
    exact hbound readF encodingList
  · intro b
    cases b <;> simp [placeImageAttempts]
  · intro b
    cases b <;> simp [modelLoadAttempts]

/-- Witness for the amended claim C8: on the `latin-1`-only file the first
successful encoding stops the scan after one attempt when tried first. -/
theorem c8_retries_amended_witness :
    readAttemptCount exReadLatin1 ["latin-1", "cp1252"] = 1 :=
  c8_retries_amended.2.1 exReadLatin1 "latin-1" ["cp1252"] ['x'] (by decide)

/-! ## Store lemmas -/

theorem lookupS_setS (st : Store) (k k' : String) (v : Entry) :
    lookupS (setS st k v) k' = if k = k' then some v else lookupS st k' := by
  induction st with
  | nil => simp [setS, lookupS]
  | cons p rest ih =>
    obtain ⟨a, b⟩ := p
    by_cases hak : a = k <;> by_cases hk : k = k' <;>
      simp_all [setS, lookupS]

theorem stemLastDot_concat_txt (x : List Char) : stemLastDot (x ++ ".txt".data) = x := by
  unfold stemLastDot
  rw [if_pos ?_]
  · rw [List.reverse_append]
    rw [show (".txt".data).reverse ++ x.reverse
        = 't' :: 'x' :: 't' :: '.' :: x.reverse from rfl]
    rw [List.dropWhile_cons_of_pos (by decide), List.dropWhile_cons_of_pos (by decide),
      List.dropWhile_cons_of_pos (by decide), List.dropWhile_cons_of_neg (by decide)]
    simp
  · have : '.' ∈ x ++ ".txt".data := List.mem_append_right x (by decide)
    simp [List.contains, List.elem_eq_mem, this]

theorem txtNameOf_data (n : String) :
    (txtNameOf n).data = stemLastDot n.data ++ ".txt".data := rfl

theorem stemLastDot_txtNameOf (n : String) :
    stemLastDot (txtNameOf n).data = stemLastDot n.data := by
  rw [txtNameOf_data, stemLastDot_concat_txt]

/-! ## Claim C6 -/

/-- Claim C6: after a successfully processed image-caption pair (in either
script), the output training directory contains a file under the image's
original filename, and a `.txt` file with the same stem whose content is
the cleaned caption. -/
theorem c6_output_pairing :
    (∀ srcEx st row st', cpSaveRow srcEx st row = (st', true) →
      (lookupS st' row.image_id).isSome = true ∧
      lookupS st' (txtNameOf row.image_id) = some (.txt row.cleaned) ∧
      stemLastDot (txtNameOf row.image_id).data = stemLastDot row.image_id.data) ∧
    (∀ st img rd row, paProcess img rd = some row →
      (lookupS (paSaveRow st img row.caption) img.fullName).isSome = true ∧
      lookupS (paSaveRow st img row.caption) (txtNameOf img.fullName)
        = some (.txt row.caption) ∧
      stemLastDot (txtNameOf img.fullName).data = stemLastDot img.fullName.data) := by
  constructor
  · intro srcEx st row st' hEq
    unfold cpSaveRow at hEq
    by_cases hsrc : srcEx (cpSrcName srcEx row.image_id) = true
    · rw [if_pos hsrc] at hEq
      have h1 : setS (if (lookupS st row.image_id).isSome then st
          else setS st row.image_id (.img (cpSrcName srcEx row.image_id)))
          (txtNameOf row.image_id) (.txt row.cleaned) = st' := congrArg Prod.fst hEq
      subst h1
      refine ⟨?_, ?_, stemLastDot_txtNameOf _⟩
      · rw [lookupS_setS]
        by_cases ht : txtNameOf row.image_id = row.image_id
        · rw [if_pos ht]; rfl
        · rw [if_neg ht]
          by_cases hs : (lookupS st row.image_id).isSome = true
          · rw [if_pos hs]; exact hs
          · rw [if_neg hs, lookupS_setS, if_pos rfl]; rfl
      · rw [lookupS_setS, if_pos rfl]
    · rw [if_neg hsrc] at hEq
      exfalso
      have := congrArg Prod.snd hEq
      simp at this
  · intro st img rd row _
    refine ⟨?_, ?_, stemLastDot_txtNameOf _⟩
    · unfold paSaveRow
      rw [lookupS_setS]
      by_cases ht : txtNameOf img.fullName = img.fullName
      · rw [if_pos ht]; rfl
      · rw [if_neg ht]
        by_cases hs : (lookupS st img.fullName).isSome = true
        · rw [if_pos hs]; exact hs
        · rw [if_neg hs, lookupS_setS, if_pos rfl]; rfl
    · unfold paSaveRow
      rw [lookupS_setS, if_pos rfl]

/-- Witness for claim C6 at a concrete run. -/
theorem c6_output_pairing_witness :
    ((lookupS [("img.jpg", Entry.img "img.jpg"), ("img.txt", Entry.txt "hello.".data)]
        "img.jpg").isSome = true ∧
      lookupS [("img.jpg", Entry.img "img.jpg"), ("img.txt", Entry.txt "hello.".data)]
        (txtNameOf "img.jpg") = some (.txt "hello.".data) ∧
      stemLastDot (txtNameOf "img.jpg").data = stemLastDot "img.jpg".data) ∧
    ((lookupS (paSaveRow [] ⟨"pic", ".png"⟩ "x y".data)
        (FName.fullName ⟨"pic", ".png"⟩)).isSome = true ∧
      lookupS (paSaveRow [] ⟨"pic", ".png"⟩ "x y".data)
        (txtNameOf (FName.fullName ⟨"pic", ".png"⟩)) = some (.txt "x y".data) ∧
      stemLastDot (txtNameOf (FName.fullName ⟨"pic", ".png"⟩)).data
        = stemLastDot (FName.fullName ⟨"pic", ".png"⟩).data) :=
  ⟨c6_output_pairing.1 (fun n => n == "img.jpg") []
      ⟨"img.jpg", "hello".data, "hello.".data⟩
      [("img.jpg", Entry.img "img.jpg"), ("img.txt", Entry.txt "hello.".data)] (by decide),
   c6_output_pairing.2 [] ⟨"pic", ".png"⟩ (some "x y".data) ⟨"pic.png", "x y".data⟩
      (by decide)⟩

/-! ## Claim C7 -/

/-- Claim C7: duplicate `image_id`s are not rejected — when the output
directory already holds a file under `image_id`, processing a later record
with the same `image_id` leaves that file unchanged (the copy/symlink is
skipped because the destination exists) while the same-stem `.txt` file is
silently overwritten with the later record's caption. -/
theorem c7_duplicate_overwrite :
    (∀ srcEx st row st' e, lookupS st row.image_id = some e →
      txtNameOf row.image_id ≠ row.image_id →
      cpSaveRow srcEx st row = (st', true) →
      lookupS st' row.image_id = some e ∧
      lookupS st' (txtNameOf row.image_id) = some (.txt row.cleaned)) ∧
    (∀ st img caption e, lookupS st img.fullName = some e →
      txtNameOf img.fullName ≠ img.fullName →
      lookupS (paSaveRow st img caption) img.fullName = some e ∧
      lookupS (paSaveRow st img caption) (txtNameOf img.fullName)
        = some (.txt caption)) := by
  constructor
  · intro srcEx st row st' e he hne hEq
    unfold cpSaveRow at hEq
    by_cases hsrc : srcEx (cpSrcName srcEx row.image_id) = true
    · rw [if_pos hsrc] at hEq
      have hsome : (lookupS st row.image_id).isSome = true := by rw [he]; rfl
      rw [if_pos hsome] at hEq
      have h1 : setS st (txtNameOf row.image_id) (.txt row.cleaned) = st' :=
        congrArg Prod.fst hEq
      subst h1
      constructor
      · rw [lookupS_setS, if_neg hne]
        exact he
      · rw [lookupS_setS, if_pos rfl]
    · rw [if_neg hsrc] at hEq
      exfalso
      have := congrArg Prod.snd hEq
      simp at this
  · intro st img caption e he hne
    have hsome : (lookupS st img.fullName).isSome = true := by rw [he]; rfl
    unfold paSaveRow
    rw [if_pos hsome]
    constructor
    · rw [lookupS_setS, if_neg hne]
      exact he
    · rw [lookupS_setS, if_pos rfl]

/-- Witness for claim C7: a second record with the same `image_id`
overwrites only the caption file. -/
theorem c7_duplicate_overwrite_witness :
    (lookupS [("img.jpg", Entry.img "img.jpg"), ("img.txt", Entry.txt "second.".data)]
        "img.jpg" = some (Entry.img "img.jpg") ∧
      lookupS [("img.jpg", Entry.img "img.jpg"), ("img.txt", Entry.txt "second.".data)]
        (txtNameOf "img.jpg") = some (.txt "second.".data)) ∧
    (lookupS (paSaveRow [("pic.png", Entry.img "pic.png"),
          ("pic.txt", Entry.txt "old".data)] ⟨"pic", ".png"⟩ "new".data)
        (FName.fullName ⟨"pic", ".png"⟩) = some (Entry.img "pic.png") ∧
      lookupS (paSaveRow [("pic.png", Entry.img "pic.png"),
          ("pic.txt", Entry.txt "old".data)] ⟨"pic", ".png"⟩ "new".data)
        (txtNameOf (FName.fullName ⟨"pic", ".png"⟩)) = some (.txt "new".data)) :=
  ⟨c7_duplicate_overwrite.1 (fun n => n == "img.jpg")
      [("img.jpg", Entry.img "img.jpg"), ("img.txt", Entry.txt "old".data)]
      ⟨"img.jpg", "second".data, "second.".data⟩
      [("img.jpg", Entry.img "img.jpg"), ("img.txt", Entry.txt "second.".data)]
      (Entry.img "img.jpg") (by decide) (by decide) (by decide),
   c7_duplicate_overwrite.2
      [("pic.png", Entry.img "pic.png"), ("pic.txt", Entry.txt "old".data)]
      ⟨"pic", ".png"⟩ "new".data (Entry.img "pic.png") (by decide) (by decide)⟩

/-! ## Matching lemmas -/

theorem mem_filesForPatterns (files : List FName) (pats : List String) (f : FName) :
    f ∈ filesForPatterns files pats ↔ f ∈ files ∧ f.ext ∈ pats := by
  induction pats with
  | nil => simp [filesForPatterns]
  | cons e es ih =>
    simp only [filesForPatterns, List.mem_append, List.mem_filter, ih, List.mem_cons,
      beq_iff_eq]
    constructor
    · rintro (⟨h1, h2⟩ | ⟨h1, h2⟩)
      · exact ⟨h1, Or.inl h2⟩
      · exact ⟨h1, Or.inr h2⟩
    · rintro ⟨h1, h2 | h2⟩
      · exact Or.inl ⟨h1, h2⟩
      · exact Or.inr ⟨h1, h2⟩

theorem stems_unique (l : List FName) (hp : List.Pairwise (fun a b => a.stem ≠ b.stem) l)
    (a b : FName) (ha : a ∈ l) (hb : b ∈ l) (hst : a.stem = b.stem) : a = b := by
  induction l with
  | nil => cases ha
  | cons x xs ih =>
    rcases List.mem_cons.mp ha with ha' | ha' <;> rcases List.mem_cons.mp hb with hb' | hb'
    · rw [ha', hb']
    · exfalso
      exact (List.pairwise_cons.mp hp).1 b hb' (ha' ▸ hst)
    · exfalso
      exact (List.pairwise_cons.mp hp).1 a ha' (hb' ▸ hst.symm)
    · exact ih (List.pairwise_cons.mp hp).2 ha' hb'

theorem mic_sound (caps imgs : List FName) (img cap : FName)
    (h : (img, cap) ∈ match_images_captions caps imgs) :
    img ∈ imgs ∧ cap ∈ caps ∧ img.stem = cap.stem := by
  unfold match_images_captions at h
  obtain ⟨cap', hcap', heq⟩ := List.mem_filterMap.mp h
  obtain ⟨img', hfind, hpair⟩ := Option.map_eq_some'.mp heq
  obtain ⟨h1, h2⟩ := Prod.mk.injEq .. ▸ hpair
  subst h1; subst h2
  refine ⟨List.mem_of_find?_eq_some hfind, hcap', ?_⟩
  have := List.find?_some hfind
  simpa using this

theorem mic_complete (caps imgs : List FName)
    (hp : List.Pairwise (fun a b => a.stem ≠ b.stem) imgs)
    (img cap : FName) (himg : img ∈ imgs) (hcap : cap ∈ caps)
    (hst : img.stem = cap.stem) :
    (img, cap) ∈ match_images_captions caps imgs := by
  unfold match_images_captions
  refine List.mem_filterMap.mpr ⟨cap, hcap, ?_⟩
  have hsome : (imgs.find? (fun i => i.stem == cap.stem)).isSome = true := by
    rw [List.find?_isSome]
    exact ⟨img, himg, by simpa using hst⟩
  obtain ⟨img', hfind⟩ := Option.isSome_iff_exists.mp hsome
  have h1 : img'.stem = cap.stem := by simpa using List.find?_some hfind
  have h2 : img' ∈ imgs := List.mem_of_find?_eq_some hfind
  have : img' = img := stems_unique imgs hp img' img h2 himg (h1.trans hst.symm)
  rw [hfind, this]
  rfl

theorem mfi_sound (caps imgs : List FName) (img cap : FName)
    (h : (img, cap) ∈ matchFromImages caps imgs) :
    img ∈ imgs ∧ cap ∈ caps ∧ img.stem = cap.stem := by
  unfold matchFromImages at h
  obtain ⟨img', himg', heq⟩ := List.mem_filterMap.mp h
  obtain ⟨cap', hfind, hpair⟩ := Option.map_eq_some'.mp heq
  obtain ⟨h1, h2⟩ := Prod.mk.injEq .. ▸ hpair
  subst h1; subst h2
  refine ⟨himg', List.mem_of_find?_eq_some hfind, ?_⟩
  have := List.find?_some hfind
  simp only [beq_iff_eq] at this
  exact this.symm

theorem mfi_complete (caps imgs : List FName)
    (hp : List.Pairwise (fun a b => a.stem ≠ b.stem) caps)
    (img cap : FName) (himg : img ∈ imgs) (hcap : cap ∈ caps)
    (hst : img.stem = cap.stem) :
    (img, cap) ∈ matchFromImages caps imgs := by
  unfold matchFromImages
  refine List.mem_filterMap.mpr ⟨img, himg, ?_⟩
  have hsome : (caps.find? (fun c => c.stem == img.stem)).isSome = true := by
    rw [List.find?_isSome]
    exact ⟨cap, hcap, by simpa using hst.symm⟩
  obtain ⟨cap', hfind⟩ := Option.isSome_iff_exists.mp hsome
  have h1 : cap'.stem = img.stem := by simpa using List.find?_some hfind
  have h2 : cap' ∈ caps := List.mem_of_find?_eq_some hfind
  have : cap' = cap := stems_unique caps hp cap' cap h2 hcap (h1.trans hst)
  rw [hfind, this]
  rfl

/-! ## Claim C3 -/

/-- Claim C3 counterexample: with two images `foo.jpg` and `foo.png` and a
caption `foo.txt`, the pair `(foo.png, foo.txt)` has equal stems and a
listed extension (and both files are present), yet it is not matched — the
caption loop breaks at the first image with the same stem. -/
theorem c3_matching_counterexample :
    (FName.mk "foo" ".png").stem = (FName.mk "foo" ".txt").stem ∧
    (FName.mk "foo" ".png").ext ∈ imageGlobPatterns ∧
    FName.mk "foo" ".png" ∈ find_image_files [⟨"foo", ".jpg"⟩, ⟨"foo", ".png"⟩] ∧
    (FName.mk "foo" ".png", FName.mk "foo" ".txt") ∉
      match_images_captions [⟨"foo", ".txt"⟩]
        (find_image_files [⟨"foo", ".jpg"⟩, ⟨"foo", ".png"⟩]) := by
  refine ⟨rfl, by decide, by decide, by decide⟩

/-- Claim C3, amended: a matched pair always has equal (case-sensitive)
stems, an image from the searched list, and an image extension from the
glob list; conversely, when no two images share a stem every such pair is
matched, and when additionally no two captions share a stem the
caption-driven and image-driven searches produce exactly the same pairs. -/
theorem c3_matching_amended :
    (∀ caps files img cap,
      (img, cap) ∈ match_images_captions caps (find_image_files files) →
      img ∈ files ∧ img.ext ∈ imageGlobPatterns ∧ cap ∈ caps ∧ img.stem = cap.stem) ∧
    (∀ caps imgs, List.Pairwise (fun a b => a.stem ≠ b.stem) imgs →
      ∀ img cap, img ∈ imgs → cap ∈ caps → img.stem = cap.stem →
      (img, cap) ∈ match_images_captions caps imgs) ∧
    (∀ caps imgs, List.Pairwise (fun a b => a.stem ≠ b.stem) imgs →
      List.Pairwise (fun a b => a.stem ≠ b.stem) caps →
      ∀ pr, pr ∈ match_images_captions caps imgs ↔ pr ∈ matchFromImages caps imgs) := by
  refine ⟨?_, ?_, ?_⟩
  · intro caps files img cap h
    obtain ⟨h1, h2, h3⟩ := mic_sound caps (find_image_files files) img cap h
    obtain ⟨h4, h5⟩ := (mem_filesForPatterns files imageGlobPatterns img).mp h1
    exact ⟨h4, h5, h2, h3⟩
  · intro caps imgs hp img cap himg hcap hst
    exact mic_complete caps imgs hp img cap himg hcap hst
  · intro caps imgs hpi hpc pr
    obtain ⟨img, cap⟩ := pr
    constructor
    · intro h
      obtain ⟨h1, h2, h3⟩ := mic_sound caps imgs img cap h
      exact mfi_complete caps imgs hpc img cap h1 h2 h3
    · intro h
      obtain ⟨h1, h2, h3⟩ := mfi_sound caps imgs img cap h
      exact mic_complete caps imgs hpi img cap h1 h2 h3

/-- Witness for the amended claim C3 on concrete distinct-stem lists. -/
theorem c3_matching_amended_witness :
    (FName.mk "a" ".jpg" ∈ [FName.mk "a" ".jpg", FName.mk "b" ".png"] ∧
      (FName.mk "a" ".jpg").ext ∈ imageGlobPatterns ∧
      FName.mk "a" ".txt" ∈ [FName.mk "a" ".txt"] ∧
      (FName.mk "a" ".jpg").stem = (FName.mk "a" ".txt").stem) ∧
    (FName.mk "a" ".jpg", FName.mk "a" ".txt") ∈
      match_images_captions [FName.mk "a" ".txt"]
        [FName.mk "a" ".jpg", FName.mk "b" ".png"] ∧
    ((FName.mk "a" ".jpg", FName.mk "a" ".txt") ∈
        match_images_captions [FName.mk "a" ".txt"]
          [FName.mk "a" ".jpg", FName.mk "b" ".png"] ↔
      (FName.mk "a" ".jpg", FName.mk "a" ".txt") ∈
        matchFromImages [FName.mk "a" ".txt"]
          [FName.mk "a" ".jpg", FName.mk "b" ".png"]) :=
  ⟨⟨by decide, by decide, by decide, rfl⟩,
   c3_matching_amended.2.1 [FName.mk "a" ".txt"]
      [FName.mk "a" ".jpg", FName.mk "b" ".png"] (by decide)
      (FName.mk "a" ".jpg") (FName.mk "a" ".txt") (by decide) (by decide) rfl,
   c3_matching_amended.2.2 [FName.mk "a" ".txt"]
      [FName.mk "a" ".jpg", FName.mk "b" ".png"] (by decide) (by decide)
      (FName.mk "a" ".jpg", FName.mk "a" ".txt")⟩

/-! ## CSV round-trip lemmas -/

